import Mathlib

/-!
Verification development for the apikey package (Go).

The Go sources are shallowly embedded: Go strings become List Char, Go byte
slices become List Nat (each element intended < 256), fallible operations
return Option.  Library primitives that live outside the repository
(crypto/sha512.Sum512, crypto/sha256.Sum256, golang.org/x/crypto/argon2.IDKey,
crypto/subtle.ConstantTimeCompare) are passed in as explicit function
parameters, so every theorem quantifies over them; encoding/hex,
encoding/base64 and the needed pieces of the strings/strconv packages are
modelled concretely below.

A Go result pair (bool, error) is modelled as Option Bool: none stands for a
non-nil error, some b for (b, nil).
-/

namespace Apikey

/-- Constant DefaultSecretBytes from apikey.go (20 random bytes for the
user-facing secret). -/
def DefaultSecretBytes : Nat := 20

/-- Constant MaxPrefixLen from apikey.go (and from the hex revision in
src/unnamed/part_003): maximum prefix length, 16. -/
def MaxPrefixLen : Nat := 16

/-- Constant SecretSymbolLen from apikey.go: exact number of non-dash symbols
required in a valid user-facing secret. -/
def SecretSymbolLen : Nat := DefaultSecretBytes

/-- Constant userFriendlyAlphabet from apikey.go:
"ABCDEFGHJKMNPQRSTUVWXYZ23456789". -/
def userFriendlyAlphabet : List Char :=
  ("ABCDEFGHJKMNPQRSTUVWXYZ23456789").toList

/-- Go encoding/hex hextable: the character for one hex nibble (input < 16;
out-of-range inputs cannot arise from a Go byte). -/
def hexDigitChar (n : Nat) : Char := (("0123456789abcdef").toList).getD n '0'

/-- Go encoding/hex EncodeToString on a byte slice: each byte becomes two
lowercase hex digits (high nibble first). -/
def hexEncode : List Nat → List Char
  | [] => []
  | b :: rest => hexDigitChar (b / 16) :: hexDigitChar (b % 16) :: hexEncode rest

/-- Go encoding/hex digit decoding: accepts 0-9, a-f, A-F. -/
def hexCharVal (c : Char) : Option Nat :=
  if '0' ≤ c ∧ c ≤ '9' then some (c.toNat - ('0').toNat)
  else if 'a' ≤ c ∧ c ≤ 'f' then some (c.toNat - ('a').toNat + 10)
  else if 'A' ≤ c ∧ c ≤ 'F' then some (c.toNat - ('A').toNat + 10)
  else none

/-- Go encoding/hex DecodeString: pairs of hex digits; odd length or an
invalid digit is an error. -/
def hexDecode : List Char → Option (List Nat)
  | [] => some []
  | [_] => none
  | a :: b :: rest =>
    match hexCharVal a, hexCharVal b, hexDecode rest with
    | some hi, some lo, some r => some ((hi * 16 + lo) :: r)
    | _, _, _ => none

/-- The symbol chosen for one input byte by encodeUserFriendly in apikey.go:
the alphabet character at index b mod len(userFriendlyAlphabet). -/
def encodeSym (b : Nat) : Char :=
  userFriendlyAlphabet.getD (b % userFriendlyAlphabet.length) 'A'

/-- The byte loop of encodeUserFriendly in apikey.go: append the symbol for
each byte and a dash after every 4th symbol; count is the number of symbols
already written. -/
def encodeUFAux : List Nat → Nat → List Char
  | [], _ => []
  | b :: rest, count =>
    if (count + 1) % 4 = 0 then
      encodeSym b :: '-' :: encodeUFAux rest (count + 1)
    else
      encodeSym b :: encodeUFAux rest (count + 1)

/-- The final step of encodeUserFriendly in apikey.go: drop a trailing dash
if the input ended exactly on a group boundary. -/
def trimTrailingDash (l : List Char) : List Char :=
  if l.getLast? = some '-' then l.dropLast else l

/-- encodeUserFriendly from apikey.go. -/
def encodeUserFriendly (b : List Nat) : List Char :=
  if b = [] then [] else trimTrailingDash (encodeUFAux b 0)

/-- Lowercase-hex character test used by isValidPrefix in apikey.go. -/
def isHexLowerChar (c : Char) : Bool :=
  (('0' ≤ c ∧ c ≤ '9') ∨ ('a' ≤ c ∧ c ≤ 'f') : Prop)

/-- isValidPrefix from apikey.go: non-empty, at most MaxPrefixLen characters,
all lowercase hex. -/
def isValidPrefixPart (p : List Char) : Bool :=
  if p = [] ∨ p.length > MaxPrefixLen then false
  else p.all isHexLowerChar

/-- isValidSecret from apikey.go: non-empty, only alphabet characters and
dashes, and exactly SecretSymbolLen non-dash characters. -/
def isValidSecret (s : List Char) : Bool :=
  if s = [] then false
  else if s.all (fun c => c == '-' || userFriendlyAlphabet.contains c) then
    (s.filter (fun c => c != '-')).length == SecretSymbolLen
  else false

/-- Go strings.Index for a single-character needle: byte index of the first
occurrence, or -1 when absent. -/
def goIndexOf (c : Char) (l : List Char) : Int :=
  if c ∈ l then (l.indexOf c : Int) else -1

/-- ParseApiKey from apikey.go: split on the first underscore (idx is the
index of its first occurrence, -1 when absent), reject empty input, missing
or boundary separator, and invalid prefix or secret. -/
def ParseApiKey (fullKey : List Char) : Option (List Char × List Char) :=
  if fullKey = [] then none
  else if goIndexOf '_' fullKey ≤ 0 ∨
      (fullKey.length : Int) - 1 ≤ goIndexOf '_' fullKey then none
  else if isValidPrefixPart (fullKey.take (goIndexOf '_' fullKey).toNat) &&
      isValidSecret (fullKey.drop ((goIndexOf '_' fullKey).toNat + 1)) then
    some (fullKey.take (goIndexOf '_' fullKey).toNat,
      fullKey.drop ((goIndexOf '_' fullKey).toNat + 1))
  else none

/-- Prefix-length clamping shared by GenerateApiKey (apikey.go) and the hex
revision Generate (src/unnamed/part_003): non-positive or oversized requests
become MaxPrefixLen. -/
def clampPrefixLen (prefixLen : Int) : Nat :=
  if prefixLen ≤ 0 ∨ prefixLen > (MaxPrefixLen : Int) then MaxPrefixLen
  else prefixLen.toNat

/-- HashApiKeySecret from apikey.go: hex encoding of the SHA-512 digest of
the secret string; sha512 abstracts crypto/sha512.Sum512. -/
def HashApiKeySecret (sha512 : List Char → List Nat) (secret : List Char) : List Char :=
  hexEncode (sha512 secret)

/-- GenerateApiKey from apikey.go.  secretBytes and prefixBytes are the
outcomes of the two crypto/rand draws (the only failure source, so a run for
which both draws succeed is total); sha512 abstracts crypto/sha512.Sum512.
Returns (fullKey, prefix, hash). -/
def GenerateApiKey (sha512 : List Char → List Nat) (prefixLen : Int)
    (secretBytes prefixBytes : List Nat) : List Char × List Char × List Char :=
  let pl := clampPrefixLen prefixLen
  let secret := encodeUserFriendly secretBytes
  let prefixHex := hexEncode prefixBytes
  let pfx := prefixHex.take pl
  (pfx ++ '_' :: secret, pfx, hexEncode (sha512 secret))

/-- ValidateApiKey from apikey.go; ctEq abstracts the
subtle.ConstantTimeCompare call on the two hex strings. -/
def ValidateApiKey (sha512 : List Char → List Nat)
    (ctEq : List Char → List Char → Bool)
    (fullKey storedHash : List Char) : Option Bool :=
  match ParseApiKey fullKey with
  | none => none
  | some (_, sec) =>
    if sec = [] then none
    else
      let h := HashApiKeySecret sha512 sec
      if h.length ≠ storedHash.length then some false
      else some (ctEq h storedHash)

/-- Functional contract of crypto/subtle.ConstantTimeCompare on equal-length
inputs: 1 exactly when the two byte sequences are equal. -/
def constantTimeEq (a b : List Nat) : Bool := a == b

/-- Character-list version of constantTimeEq, for the hex-string comparison
in ValidateApiKey. -/
def constantTimeEqChars (a b : List Char) : Bool := a == b

/-! Earlier revisions of key generation kept in the repository
(src/unnamed/part_002 and src/unnamed/part_003). -/

/-- Constant MaxPrefixLen of the earliest revision (src/unnamed/part_002),
which clamps to 10. -/
def MaxPrefixLen002 : Nat := 10

/-- Prefix-length clamping of src/unnamed/part_002 (maximum 10). -/
def clampPrefixLen002 (prefixLen : Int) : Nat :=
  if prefixLen ≤ 0 ∨ prefixLen > (MaxPrefixLen002 : Int) then MaxPrefixLen002
  else prefixLen.toNat

/-- Generate from src/unnamed/part_002.  This revision draws only the secret
bytes; the prefix is the first prefixLen characters of the hex-encoded
secret.  Returns (fullKey, prefix, hash); the separator is a dot. -/
def Generate_v002 (sha512 : List Char → List Nat) (prefixLen : Int)
    (secretBytes : List Nat) : List Char × List Char × List Char :=
  let pl := clampPrefixLen002 prefixLen
  let secretHex := hexEncode secretBytes
  let pfx := secretHex.take pl
  (pfx ++ '.' :: secretHex, pfx, hexEncode (sha512 secretHex))

/-- Generate from src/unnamed/part_003.  This revision hex-encodes 32 secret
bytes and draws an independent random prefix; the separator is a dot.
Returns (fullKey, prefix, hash). -/
def Generate_v003 (sha512 : List Char → List Nat) (prefixLen : Int)
    (secretBytes prefixBytes : List Nat) : List Char × List Char × List Char :=
  let pl := clampPrefixLen prefixLen
  let secretHex := hexEncode secretBytes
  let prefixHex := hexEncode prefixBytes
  let pfx := prefixHex.take pl
  (pfx ++ '.' :: secretHex, pfx, hexEncode (sha512 secretHex))

/-! Model of the pieces of the Go strings / strconv / encoding/base64
packages used by password.go and bootstrap.go. -/

/-- Go strings.Split for a single-character separator. -/
def goSplit (sep : Char) : List Char → List (List Char)
  | [] => [[]]
  | c :: rest =>
    if c = sep then [] :: goSplit sep rest
    else
      match goSplit sep rest with
      | [] => [[c]]
      | x :: xs => (c :: x) :: xs

/-- Go strings.SplitN with limit 2 for a single-character separator, returned
as the pair around the first occurrence; none when the separator is absent
(Go would return a one-element slice, which VerifyPassword rejects). -/
def splitN2 (sep : Char) (l : List Char) : Option (List Char × List Char) :=
  if sep ∈ l then some (l.takeWhile (fun c => c != sep), (l.dropWhile (fun c => c != sep)).drop 1)
  else none

/-- Decimal digit value for strconv.ParseUint. -/
def digitVal (c : Char) : Option Nat :=
  if '0' ≤ c ∧ c ≤ '9' then some (c.toNat - ('0').toNat) else none

/-- Digit-accumulating loop of strconv.ParseUint (base 10). -/
def parseUintLoop : List Char → Nat → Option Nat
  | [], acc => some acc
  | c :: rest, acc =>
    match digitVal c with
    | none => none
    | some d => parseUintLoop rest (acc * 10 + d)

/-- Go strconv.ParseUint(s, 10, bits): error on empty input, a non-digit, or
a value outside bits bits. -/
def parseUint (s : List Char) (bits : Nat) : Option Nat :=
  if s = [] then none
  else
    match parseUintLoop s 0 with
    | none => none
    | some v => if v < 2 ^ bits then some v else none

/-- The m=/t=/p= parameter loop of VerifyPassword in password.go, folding
over the comma-separated key=value fragments; mem, time, par accumulate the
parsed values (zero-initialised, as in Go). -/
def parseArgonParams : List (List Char) → Nat → Nat → Nat → Option (Nat × Nat × Nat)
  | [], mem, time, par => some (mem, time, par)
  | kv :: rest, mem, time, par =>
    match splitN2 '=' kv with
    | none => none
    | some (k, v) =>
      if k = ['m'] then
        match parseUint v 32 with
        | none => none
        | some mv => parseArgonParams rest mv time par
      else if k = ['t'] then
        match parseUint v 32 with
        | none => none
        | some iv => parseArgonParams rest mem iv par
      else if k = ['p'] then
        match parseUint v 8 with
        | none => none
        | some pv => parseArgonParams rest mem time pv
      else none

/-- The base64 standard alphabet (encoding/base64). -/
def b64Alphabet : List Char :=
  ("ABCDEFGHIJKLMNOPQRSTUVWXYZabcdefghijklmnopqrstuvwxyz0123456789+/").toList

/-- Encoding character for one 6-bit group (input < 64). -/
def b64Chr (n : Nat) : Char := b64Alphabet.getD n 'A'

/-- 6-bit value of one base64 character; none for a character outside the
standard alphabet. -/
def b64Val (c : Char) : Option Nat :=
  let i := b64Alphabet.indexOf c
  if c ∈ b64Alphabet then some i else none

/-- Go base64.RawStdEncoding.EncodeToString: unpadded standard base64. -/
def rawB64Encode : List Nat → List Char
  | [] => []
  | [b1] => [b64Chr (b1 / 4), b64Chr (b1 % 4 * 16)]
  | [b1, b2] => [b64Chr (b1 / 4), b64Chr (b1 % 4 * 16 + b2 / 16), b64Chr (b2 % 16 * 4)]
  | b1 :: b2 :: b3 :: rest =>
    b64Chr (b1 / 4) :: b64Chr (b1 % 4 * 16 + b2 / 16) ::
      b64Chr (b2 % 16 * 4 + b3 / 64) :: b64Chr (b3 % 64) :: rawB64Encode rest

/-- Go base64.RawStdEncoding.DecodeString: unpadded standard base64; a
length of 1 mod 4 or a character outside the alphabet is an error; unused
trailing bits are ignored (the non-strict Go default). -/
def rawB64Decode : List Char → Option (List Nat)
  | [] => some []
  | [_] => none
  | [a, b] =>
    match b64Val a, b64Val b with
    | some va, some vb => some [va * 4 + vb / 16]
    | _, _ => none
  | [a, b, c] =>
    match b64Val a, b64Val b, b64Val c with
    | some va, some vb, some vc => some [va * 4 + vb / 16, vb % 16 * 16 + vc / 4]
    | _, _, _ => none
  | a :: b :: c :: d :: rest =>
    match b64Val a, b64Val b, b64Val c, b64Val d, rawB64Decode rest with
    | some va, some vb, some vc, some vd, some r =>
      some ((va * 4 + vb / 16) :: (vb % 16 * 16 + vc / 4) :: (vc % 4 * 64 + vd) :: r)
    | _, _, _, _, _ => none

/-! Model of password.go. -/

/-- Whitespace predicate of Go unicode.IsSpace (the code points TrimSpace
strips). -/
def goIsSpace (c : Char) : Bool :=
  c ∈ [' ', '\t', '\n', Char.ofNat 11, Char.ofNat 12, '\r',
    Char.ofNat 0x85, Char.ofNat 0xA0, Char.ofNat 0x1680, Char.ofNat 0x2000,
    Char.ofNat 0x2001, Char.ofNat 0x2002, Char.ofNat 0x2003, Char.ofNat 0x2004,
    Char.ofNat 0x2005, Char.ofNat 0x2006, Char.ofNat 0x2007, Char.ofNat 0x2008,
    Char.ofNat 0x2009, Char.ofNat 0x200A, Char.ofNat 0x2028, Char.ofNat 0x2029,
    Char.ofNat 0x202F, Char.ofNat 0x205F, Char.ofNat 0x3000]

/-- Go strings.TrimSpace: drop leading and trailing whitespace. -/
def trimSpace (s : List Char) : List Char :=
  ((s.dropWhile goIsSpace).reverse.dropWhile goIsSpace).reverse

/-- The PHC string assembled by HashPassword in password.go with its
compile-time parameters m=65536, t=2, p=1 interpolated. -/
def mkPhc (salt hash : List Nat) : List Char :=
  (("$argon2id$v=19$m=65536,t=2,p=1$").toList) ++ rawB64Encode salt ++ '$' :: rawB64Encode hash

/-- HashPassword from password.go.  salt is the outcome of the crypto/rand
draw; argon2 abstracts argon2.IDKey(password, salt, time, memory, threads,
keyLen).  none models the non-nil error for a TrimSpace-empty password. -/
def HashPassword (argon2 : List Nat → List Nat → Nat → Nat → Nat → Nat → List Nat)
    (password : List Char) (salt : List Nat) : Option (List Char) :=
  if trimSpace password = [] then none
  else some (mkPhc salt (argon2 (password.map Char.toNat) salt 2 65536 1 32))

/-- VerifyPassword from password.go; argon2 abstracts argon2.IDKey and ctEq
the subtle.ConstantTimeCompare call. -/
def VerifyPassword (argon2 : List Nat → List Nat → Nat → Nat → Nat → Nat → List Nat)
    (ctEq : List Nat → List Nat → Bool)
    (phc password : List Char) : Option Bool :=
  if ¬ ((("$argon2id$").toList).isPrefixOf phc) then none
  else
    let parts := goSplit '$' phc
    if parts.length ≠ 6 then none
    else if parts.getD 2 [] ≠ (("v=19").toList) then none
    else
      match parseArgonParams (goSplit ',' (parts.getD 3 [])) 0 0 0 with
      | none => none
      | some (mem, time, par) =>
        match rawB64Decode (parts.getD 4 []) with
        | none => none
        | some salt =>
          match rawB64Decode (parts.getD 5 []) with
          | none => none
          | some want =>
            let got := argon2 (password.map Char.toNat) salt time mem par want.length
            if got.length ≠ want.length then some false
            else some (ctEq got want)

/-! Model of bootstrap.go. -/

/-- GenerateBootstrap from bootstrap.go, with the two random draws (32
secret bytes, 16 salt bytes) as inputs; sha256 abstracts
crypto/sha256.Sum256 and argon2 abstracts argon2.IDKey.  Returns
(plain, hash); the expiry timestamp is real time and is not modelled. -/
def GenerateBootstrap (sha256 : List Nat → List Nat)
    (argon2 : List Nat → List Nat → Nat → Nat → Nat → Nat → List Nat)
    (secret salt : List Nat) : List Char × List Char :=
  let plain := hexEncode secret
  let sum := sha256 secret
  let derived := argon2 sum salt 1 65536 4 32
  (plain, hexEncode salt ++ ':' :: hexEncode derived)

/-- ValidateBootstrap from bootstrap.go. -/
def ValidateBootstrap (sha256 : List Nat → List Nat)
    (argon2 : List Nat → List Nat → Nat → Nat → Nat → Nat → List Nat)
    (ctEq : List Nat → List Nat → Bool)
    (plain stored : List Char) : Option Bool :=
  if plain = [] ∨ stored = [] then none
  else
    match goSplit ':' stored with
    | [saltHex, derivedHex] =>
      match hexDecode saltHex with
      | none => none
      | some salt =>
        match hexDecode derivedHex with
        | none => none
        | some storedDerived =>
          match hexDecode plain with
          | none => none
          | some secretBytes =>
            let sum := sha256 secretBytes
            let computed := argon2 sum salt 1 65536 4 32
            if computed.length ≠ storedDerived.length then some false
            else some (ctEq computed storedDerived)
    | _ => none

/-! Spec-side definitions used to state the grouping property of the
human-friendly encoding: split a symbol string into runs of 4 and join runs
with single dashes, with no trailing dash. -/

/-- Runs of 4 consecutive elements (the last run may be shorter). -/
def chunks4 (l : List Char) : List (List Char) :=
  if h : l = [] then [] else l.take 4 :: chunks4 (l.drop 4)
  termination_by l.length
  decreasing_by
    simp only [List.length_drop]
    have : l.length ≠ 0 := fun hn => h (List.length_eq_zero.mp hn)
    omega

/-- Join runs with a single dash between consecutive runs (no trailing
dash). -/
def joinDash : List (List Char) → List Char
  | [] => []
  | [g] => g
  | g :: g2 :: gs => g ++ '-' :: joinDash (g2 :: gs)

/-- PHC-shaped string assembly used to state theorems about VerifyPassword:
dollar, "argon2id", dollar, "v=19", dollar, the parameter fragment, dollar,
the base64 salt, dollar, the base64 hash. -/
def phcAssemble (params saltB64 hashB64 : List Char) : List Char :=
  '$' :: ((("argon2id").toList) ++ '$' :: ((("v=19").toList) ++ '$' ::
    (params ++ '$' :: (saltB64 ++ '$' :: hashB64))))

/-! Lemmas about the hex encoder. -/

theorem hexEncode_length (bs : List Nat) : (hexEncode bs).length = 2 * bs.length := by
  induction bs with
  | nil => rfl
  | cons b rest ih => simp [hexEncode, ih]; omega

theorem hexDigitChar_hexLower {n : Nat} (h : n < 16) :
    isHexLowerChar (hexDigitChar n) = true := by
  have hall : ∀ m < 16, isHexLowerChar (hexDigitChar m) = true := by decide
  exact hall n h

theorem hexEncode_all_hexLower {bs : List Nat} (h : ∀ b ∈ bs, b < 256) :
    (hexEncode bs).all isHexLowerChar = true := by
  induction bs with
  | nil => rfl
  | cons b rest ih =>
    have hb : b < 256 := h b (by simp)
    simp only [hexEncode, List.all_cons, Bool.and_eq_true]
    refine ⟨hexDigitChar_hexLower (by omega), hexDigitChar_hexLower (by omega), ?_⟩
    exact ih (fun x hx => h x (by simp [hx]))

theorem mem_hexEncode_hexLower {bs : List Nat} {c : Char}
    (hb : ∀ b ∈ bs, b < 256) (hc : c ∈ hexEncode bs) : isHexLowerChar c = true := by
  have := hexEncode_all_hexLower hb
  rw [List.all_eq_true] at this
  exact this c hc

theorem underscore_not_mem_hexEncode {bs : List Nat} (hb : ∀ b ∈ bs, b < 256) :
    '_' ∉ hexEncode bs := by
  intro hmem
  have := mem_hexEncode_hexLower hb hmem
  exact absurd this (by decide)

theorem colon_not_mem_hexEncode {bs : List Nat} (hb : ∀ b ∈ bs, b < 256) :
    ':' ∉ hexEncode bs := by
  intro hmem
  have := mem_hexEncode_hexLower hb hmem
  exact absurd this (by decide)

theorem hexCharVal_hexDigitChar {b : Nat} (h : b < 256) :
    hexCharVal (hexDigitChar (b / 16)) = some (b / 16) ∧
      hexCharVal (hexDigitChar (b % 16)) = some (b % 16) := by
  have hall : ∀ m < 16, hexCharVal (hexDigitChar m) = some m := by decide
  exact ⟨hall _ (by omega), hall _ (by omega)⟩

theorem hexDecode_hexEncode {bs : List Nat} (h : ∀ b ∈ bs, b < 256) :
    hexDecode (hexEncode bs) = some bs := by
  induction bs with
  | nil => rfl
  | cons b rest ih =>
    have hb : b < 256 := h b (by simp)
    obtain ⟨h1, h2⟩ := hexCharVal_hexDigitChar hb
    have ihr : hexDecode (hexEncode rest) = some rest :=
      ih (fun x hx => h x (by simp [hx]))
    simp only [hexEncode, hexDecode, h1, h2, ihr]
    have : b / 16 * 16 + b % 16 = b := by omega
    rw [this]

/-! Lemmas about the human-friendly encoder. -/

theorem alphabet_length : userFriendlyAlphabet.length = 31 := by decide

theorem encodeSym_contains (b : Nat) :
    userFriendlyAlphabet.contains (encodeSym b) = true := by
  have hall : ∀ r < 31, userFriendlyAlphabet.contains (userFriendlyAlphabet.getD r 'A') = true := by
    decide
  have hlt : b % userFriendlyAlphabet.length < 31 := by
    rw [alphabet_length]; exact Nat.mod_lt _ (by norm_num)
  exact hall _ hlt

theorem encodeSym_ne_dash (b : Nat) : encodeSym b ≠ '-' := by
  intro he
  have := encodeSym_contains b
  rw [he] at this
  exact absurd this (by decide)

theorem encodeSym_mem (b : Nat) : encodeSym b ∈ userFriendlyAlphabet := by
  have := encodeSym_contains b
  simpa using this

theorem encodeUFAux_all (bs : List Nat) : ∀ count,
    (encodeUFAux bs count).all (fun c => c == '-' || userFriendlyAlphabet.contains c) = true := by
  induction bs with
  | nil => intro count; rfl
  | cons b rest ih =>
    intro count
    by_cases h4 : (count + 1) % 4 = 0 <;>
      · simp [encodeUFAux, h4]
        exact ⟨Or.inr (encodeSym_mem b), by simpa using ih (count + 1)⟩

theorem encodeUFAux_filter (bs : List Nat) : ∀ count,
    (encodeUFAux bs count).filter (fun c => c != '-') = bs.map encodeSym := by
  induction bs with
  | nil => intro count; rfl
  | cons b rest ih =>
    intro count
    have hne : (encodeSym b != '-') = true := by
      simp [bne_iff_ne, encodeSym_ne_dash b]
    by_cases h4 : (count + 1) % 4 = 0 <;>
      simp [encodeUFAux, h4, List.filter_cons, hne, ih (count + 1)]

theorem trimTrailingDash_filter (l : List Char) :
    (trimTrailingDash l).filter (fun c => c != '-') = l.filter (fun c => c != '-') := by
  unfold trimTrailingDash
  by_cases h : l.getLast? = some '-'
  · rw [if_pos h]
    have hne : l ≠ [] := by
      intro he; rw [he] at h; simp at h
    have hlast : l.getLast hne = '-' := by
      have := List.getLast?_eq_getLast l hne
      rw [this] at h
      exact (Option.some_inj.mp h)
    conv_rhs => rw [← List.dropLast_append_getLast hne]
    rw [List.filter_append, hlast]
    simp
  · rw [if_neg h]

theorem trimTrailingDash_all {l : List Char} {p : Char → Bool}
    (h : l.all p = true) : (trimTrailingDash l).all p = true := by
  unfold trimTrailingDash
  by_cases hd : l.getLast? = some '-'
  · rw [if_pos hd]
    rw [List.all_eq_true] at h ⊢
    exact fun c hc => h c (List.dropLast_sublist l |>.mem hc)
  · rw [if_neg hd]; exact h

theorem encodeUserFriendly_all (bs : List Nat) :
    (encodeUserFriendly bs).all (fun c => c == '-' || userFriendlyAlphabet.contains c) = true := by
  unfold encodeUserFriendly
  by_cases h : bs = []
  · rw [if_pos h]; rfl
  · rw [if_neg h]; exact trimTrailingDash_all (encodeUFAux_all bs 0)

theorem encodeUserFriendly_filter (bs : List Nat) :
    (encodeUserFriendly bs).filter (fun c => c != '-') = bs.map encodeSym := by
  unfold encodeUserFriendly
  by_cases h : bs = []
  · rw [if_pos h, h]; rfl
  · rw [if_neg h, trimTrailingDash_filter, encodeUFAux_filter]

theorem isValidSecret_encodeUserFriendly {bs : List Nat}
    (h : bs.length = SecretSymbolLen) : isValidSecret (encodeUserFriendly bs) = true := by
  have hfil : (encodeUserFriendly bs).filter (fun c => c != '-') = bs.map encodeSym :=
    encodeUserFriendly_filter bs
  have hnil : encodeUserFriendly bs ≠ [] := by
    intro he
    rw [he] at hfil
    have : bs.map encodeSym = [] := hfil.symm
    have hb : bs = [] := by
      cases bs with
      | nil => rfl
      | cons x xs => simp at this
    rw [hb] at h
    simp [SecretSymbolLen, DefaultSecretBytes] at h
  unfold isValidSecret
  rw [if_neg hnil, if_pos (encodeUserFriendly_all bs)]
  rw [hfil, List.length_map, h]
  simp

theorem underscore_not_mem_encodeUserFriendly (bs : List Nat) :
    '_' ∉ encodeUserFriendly bs := by
  intro hmem
  have := encodeUserFriendly_all bs
  rw [List.all_eq_true] at this
  have := this '_' hmem
  exact absurd this (by decide)

/-! Lemmas about goIndexOf and ParseApiKey. -/

theorem goIndexOf_append_sep {p : List Char} {c : Char} (hp : c ∉ p) (s : List Char) :
    goIndexOf c (p ++ c :: s) = (p.length : Int) := by
  unfold goIndexOf
  rw [if_pos (by simp)]
  rw [List.indexOf_append_of_not_mem hp]
  simp [List.indexOf_cons_self]

/-- ParseApiKey on an explicitly decomposed key: when the prefix part holds
no underscore, the parse fails exactly for an empty part or an invalid
prefix or secret, and otherwise returns the two parts. -/
theorem parse_structured {p s : List Char} (hp : '_' ∉ p) :
    ParseApiKey (p ++ '_' :: s) =
      if p = [] ∨ s = [] then none
      else if isValidPrefixPart p && isValidSecret s then some (p, s) else none := by
  have hidx : goIndexOf '_' (p ++ '_' :: s) = (p.length : Int) := goIndexOf_append_sep hp s
  have hlen : (p ++ '_' :: s).length = p.length + s.length + 1 := by
    simp [List.length_append]
    omega
  have htake : (p ++ '_' :: s).take p.length = p := List.take_left p ('_' :: s)
  have hdrop : (p ++ '_' :: s).drop (p.length + 1) = s := by
    rw [List.append_cons]
    have h2 : (p ++ ['_']).length = p.length + 1 := by simp
    rw [← h2, List.drop_left]
  unfold ParseApiKey
  rw [if_neg (by simp : ¬(p ++ '_' :: s = []))]
  rw [hidx, hlen]
  by_cases hps : p = [] ∨ s = []
  · rw [if_pos ?hcp, if_pos hps]
    case hcp =>
      rcases hps with h | h
      · left; simp [h]
      · right
        subst h
        simp
  · push_neg at hps
    obtain ⟨hp0, hs0⟩ := hps
    have hpl : 0 < p.length := List.length_pos.mpr hp0
    have hsl : 0 < s.length := List.length_pos.mpr hs0
    have hcond : ¬((p.length : Int) ≤ 0 ∨
        ((p.length + s.length + 1 : ℕ) : Int) - 1 ≤ (p.length : Int)) := by
      push_cast
      omega
    rw [if_neg hcond]
    have htn : ((p.length : Int)).toNat = p.length := by omega
    rw [htn, htake, hdrop]
    rw [if_neg (show ¬(p = [] ∨ s = []) from fun hor => hor.elim hp0 hs0)]

theorem isValidSecret_ne_nil {s : List Char} (h : isValidSecret s = true) : s ≠ [] := by
  intro he
  rw [he] at h
  simp [isValidSecret] at h

theorem clampPrefixLen_bounds (n : Int) :
    1 ≤ clampPrefixLen n ∧ clampPrefixLen n ≤ MaxPrefixLen := by
  unfold clampPrefixLen
  by_cases h : n ≤ 0 ∨ n > (MaxPrefixLen : Int)
  · rw [if_pos h]
    simp [MaxPrefixLen]
  · rw [if_neg h]
    push_neg at h
    simp [MaxPrefixLen] at h ⊢
    omega

/-- The prefix built by GenerateApiKey (and by the part_003 Generate): the
clamped number of characters taken from the hex encoding of the prefix
bytes.  With the actual draw size ceil(pl/2) bytes, it has exactly pl
characters, all lowercase hex. -/
theorem generated_pfx_spec {prefixBytes : List Nat} {pl : Nat}
    (hlen : prefixBytes.length = (pl + 1) / 2)
    (hv : ∀ b ∈ prefixBytes, b < 256) :
    ((hexEncode prefixBytes).take pl).length = pl ∧
      ((hexEncode prefixBytes).take pl).all isHexLowerChar = true := by
  have hhl : (hexEncode prefixBytes).length = 2 * ((pl + 1) / 2) := by
    rw [hexEncode_length, hlen]
  constructor
  · rw [List.length_take, hhl]
    omega
  · rw [List.all_eq_true]
    intro c hc
    exact mem_hexEncode_hexLower hv ((List.take_sublist pl _).subset hc)

theorem generated_pfx_valid {prefixBytes : List Nat} {pl : Nat}
    (hlen : prefixBytes.length = (pl + 1) / 2)
    (hv : ∀ b ∈ prefixBytes, b < 256)
    (hpl1 : 1 ≤ pl) (hpl2 : pl ≤ MaxPrefixLen) :
    isValidPrefixPart ((hexEncode prefixBytes).take pl) = true ∧
      '_' ∉ (hexEncode prefixBytes).take pl ∧
      ((hexEncode prefixBytes).take pl) ≠ [] := by
  obtain ⟨hplen, hphex⟩ := generated_pfx_spec hlen hv
  have hne : (hexEncode prefixBytes).take pl ≠ [] := by
    intro he
    rw [he] at hplen
    simp at hplen
    omega
  refine ⟨?_, ?_, hne⟩
  · unfold isValidPrefixPart
    rw [if_neg ?hc]
    · exact hphex
    case hc =>
      rw [not_or]
      refine ⟨hne, ?_⟩
      rw [hplen]
      omega
  · intro hmem
    rw [List.all_eq_true] at hphex
    have := hphex '_' hmem
    exact absurd this (by decide)

/-- C1: round-trip of generation and parsing.  For every prefix length and
every outcome of the two random draws (20 secret bytes and ceil(pl/2) prefix
bytes, pl the clamped length), parsing the generated full key succeeds,
returns exactly the generated prefix, and returns a secret whose
HashApiKeySecret digest equals the hash returned by generation. -/
theorem c1_generate_parse_roundtrip
    (sha512 : List Char → List Nat) (prefixLen : Int)
    (secretBytes prefixBytes : List Nat)
    (hsec : secretBytes.length = DefaultSecretBytes)
    (hpre : prefixBytes.length = (clampPrefixLen prefixLen + 1) / 2)
    (hpv : ∀ b ∈ prefixBytes, b < 256) :
    ParseApiKey (GenerateApiKey sha512 prefixLen secretBytes prefixBytes).1 =
      some ((GenerateApiKey sha512 prefixLen secretBytes prefixBytes).2.1,
        encodeUserFriendly secretBytes) ∧
    HashApiKeySecret sha512 (encodeUserFriendly secretBytes) =
      (GenerateApiKey sha512 prefixLen secretBytes prefixBytes).2.2 := by
  obtain ⟨hpl1, hpl2⟩ := clampPrefixLen_bounds prefixLen
  obtain ⟨hvp, hnu, hne⟩ := generated_pfx_valid hpre hpv hpl1 hpl2
  have hvs : isValidSecret (encodeUserFriendly secretBytes) = true :=
    isValidSecret_encodeUserFriendly (by rw [hsec]; rfl)
  have hsne : encodeUserFriendly secretBytes ≠ [] := isValidSecret_ne_nil hvs
  have hfull : GenerateApiKey sha512 prefixLen secretBytes prefixBytes =
      ((hexEncode prefixBytes).take (clampPrefixLen prefixLen) ++
          '_' :: encodeUserFriendly secretBytes,
        (hexEncode prefixBytes).take (clampPrefixLen prefixLen),
        hexEncode (sha512 (encodeUserFriendly secretBytes))) := rfl
  rw [hfull]
  refine ⟨?_, rfl⟩
  rw [parse_structured hnu]
  rw [if_neg (show ¬_ from fun hor => hor.elim hne hsne)]
  rw [if_pos (by rw [hvp, hvs]; rfl)]

/-- Witness for C1 at prefix length 6 with concrete all-zero draws. -/
theorem c1_generate_parse_roundtrip_witness :
    ParseApiKey (GenerateApiKey (fun _ => []) 6 (List.replicate 20 0) (List.replicate 3 0)).1 =
      some ((GenerateApiKey (fun _ => []) 6 (List.replicate 20 0) (List.replicate 3 0)).2.1,
        encodeUserFriendly (List.replicate 20 0)) ∧
    HashApiKeySecret (fun _ => []) (encodeUserFriendly (List.replicate 20 0)) =
      (GenerateApiKey (fun _ => []) 6 (List.replicate 20 0) (List.replicate 3 0)).2.2 :=
  c1_generate_parse_roundtrip (fun _ => []) 6 (List.replicate 20 0) (List.replicate 3 0)
    (by decide) (by decide) (by decide)

/-! Grouping structure of the human-friendly encoding (for C2). -/

theorem encodeUFAux_congr_mod (bs : List Nat) : ∀ c₁ c₂, c₁ % 4 = c₂ % 4 →
    encodeUFAux bs c₁ = encodeUFAux bs c₂ := by
  induction bs with
  | nil => intro c₁ c₂ _; rfl
  | cons b rest ih =>
    intro c₁ c₂ h
    have h1 : (c₁ + 1) % 4 = (c₂ + 1) % 4 := by omega
    unfold encodeUFAux
    rw [h1, ih (c₁ + 1) (c₂ + 1) h1]

theorem encodeUFAux_ne_nil {bs : List Nat} (h : bs ≠ []) (c : Nat) :
    encodeUFAux bs c ≠ [] := by
  cases bs with
  | nil => exact absurd rfl h
  | cons b rest => by_cases h4 : (c + 1) % 4 = 0 <;> simp [encodeUFAux, h4]

theorem getLast?_cons_ne {x : Char} {l : List Char} (h : l ≠ []) :
    (x :: l).getLast? = l.getLast? := by
  cases l with
  | nil => exact absurd rfl h
  | cons y ys => exact List.getLast?_cons_cons

theorem encodeUFAux_getLast (bs : List Nat) : ∀ c, bs ≠ [] → (c + bs.length) % 4 ≠ 0 →
    ∃ ch, (encodeUFAux bs c).getLast? = some ch ∧
      userFriendlyAlphabet.contains ch = true := by
  induction bs with
  | nil => intro c h _; exact absurd rfl h
  | cons b rest ih =>
    intro c _ hm
    cases rest with
    | nil =>
      have h4 : (c + 1) % 4 ≠ 0 := by simpa using hm
      refine ⟨encodeSym b, ?_, encodeSym_contains b⟩
      simp [encodeUFAux, h4]
    | cons b2 rest2 =>
      have hr : (b2 :: rest2 : List Nat) ≠ [] := by simp
      have hm2 : ((c + 1) + (b2 :: rest2).length) % 4 ≠ 0 := by
        simp only [List.length_cons] at hm ⊢
        omega
      obtain ⟨ch, hlast, hcont⟩ := ih (c + 1) hr hm2
      refine ⟨ch, ?_, hcont⟩
      have hnn : encodeUFAux (b2 :: rest2) (c + 1) ≠ [] := encodeUFAux_ne_nil hr (c + 1)
      have hstep : encodeUFAux (b :: b2 :: rest2) c =
          if (c + 1) % 4 = 0 then encodeSym b :: '-' :: encodeUFAux (b2 :: rest2) (c + 1)
          else encodeSym b :: encodeUFAux (b2 :: rest2) (c + 1) := rfl
      by_cases h4 : (c + 1) % 4 = 0
      · rw [hstep, if_pos h4]
        rw [getLast?_cons_ne (by simp : ('-' :: encodeUFAux (b2 :: rest2) (c + 1)) ≠ [])]
        rw [getLast?_cons_ne hnn]
        exact hlast
      · rw [hstep, if_neg h4]
        rw [getLast?_cons_ne hnn]
        exact hlast

theorem chunks4_cons_cons (x1 x2 x3 x4 : Char) (rest : List Char) :
    chunks4 (x1 :: x2 :: x3 :: x4 :: rest) = [x1, x2, x3, x4] :: chunks4 rest := by
  rw [chunks4]
  simp

theorem chunks4_ne_nil {l : List Char} (h : l ≠ []) : chunks4 l ≠ [] := by
  rw [chunks4]
  simp [h]

theorem encodeUFAux_zero_eq : ∀ bs : List Nat,
    encodeUFAux bs 0 = joinDash (chunks4 (bs.map encodeSym)) ++
      (if bs ≠ [] ∧ bs.length % 4 = 0 then ['-'] else [])
  | [] => by simp [encodeUFAux, chunks4, joinDash]
  | [a] => by
    rw [chunks4]
    simp [encodeUFAux, chunks4, joinDash]
  | [a, b] => by
    rw [chunks4]
    simp [encodeUFAux, chunks4, joinDash]
  | [a, b, c] => by
    rw [chunks4]
    simp [encodeUFAux, chunks4, joinDash]
  | a :: b :: c :: d :: rest => by
    have ih := encodeUFAux_zero_eq rest
    have hL : encodeUFAux (a :: b :: c :: d :: rest) 0 =
        encodeSym a :: encodeSym b :: encodeSym c :: encodeSym d ::
          '-' :: encodeUFAux rest 4 := by
      simp [encodeUFAux]
    have h40 : encodeUFAux rest 4 = encodeUFAux rest 0 :=
      encodeUFAux_congr_mod rest 4 0 (by norm_num)
    have hC : chunks4 ((a :: b :: c :: d :: rest).map encodeSym) =
        [encodeSym a, encodeSym b, encodeSym c, encodeSym d] ::
          chunks4 (rest.map encodeSym) := by
      simp only [List.map_cons]
      exact chunks4_cons_cons _ _ _ _ _
    rw [hL, h40, ih, hC]
    by_cases hre : rest = []
    · subst hre
      simp [chunks4, joinDash]
    · have hch : chunks4 (rest.map encodeSym) ≠ [] :=
        chunks4_ne_nil (by simpa using hre)
      obtain ⟨g, gs, hgs⟩ : ∃ g gs, chunks4 (rest.map encodeSym) = g :: gs := by
        cases hx : chunks4 (rest.map encodeSym) with
        | nil => exact absurd hx hch
        | cons g gs => exact ⟨g, gs, rfl⟩
      rw [hgs]
      have hmod : ((a :: b :: c :: d :: rest).length % 4 = 0) ↔ (rest.length % 4 = 0) := by
        simp only [List.length_cons]
        omega
      by_cases hm : rest.length % 4 = 0
      · rw [if_pos ⟨hre, hm⟩, if_pos ⟨by simp, hmod.mpr hm⟩]
        simp [joinDash]
      · rw [if_neg (by tauto), if_neg (by rw [not_and]; intro _; rw [hmod]; exact hm)]
        simp [joinDash]

/-- The human-friendly encoder equals: map each byte to its alphabet symbol,
cut the symbol string into runs of 4, and join the runs with single dashes
(no trailing dash). -/
theorem encodeUserFriendly_grouping (bs : List Nat) :
    encodeUserFriendly bs = joinDash (chunks4 (bs.map encodeSym)) := by
  by_cases h : bs = []
  · subst h
    simp [encodeUserFriendly, chunks4, joinDash]
  · unfold encodeUserFriendly
    rw [if_neg h, encodeUFAux_zero_eq]
    by_cases hm : bs.length % 4 = 0
    · rw [if_pos ⟨h, hm⟩]
      unfold trimTrailingDash
      rw [if_pos (List.getLast?_concat _)]
      exact List.dropLast_concat
    · rw [if_neg (by tauto : ¬(bs ≠ [] ∧ bs.length % 4 = 0))]
      rw [List.append_nil]
      obtain ⟨ch, hlast, hcont⟩ := encodeUFAux_getLast bs 0 h (by simpa using hm)
      rw [encodeUFAux_zero_eq, if_neg (by tauto : ¬(bs ≠ [] ∧ bs.length % 4 = 0)),
        List.append_nil] at hlast
      have hchd : ch ≠ '-' := by
        intro he
        rw [he] at hcont
        exact absurd hcont (by decide)
      unfold trimTrailingDash
      rw [if_neg (by rw [hlast]; simp [hchd])]

/-- C2 counterexample: the alphabet has 31 symbols, not 32, and the
byte-to-symbol map is biased (the symbol at index 0 has nine byte preimages,
the one at index 30 has eight). -/
theorem c2_counterexample :
    userFriendlyAlphabet.length ≠ 32 ∧
    ((List.range 256).filter (fun b => encodeSym b == 'A')).length ≠
      ((List.range 256).filter (fun b => encodeSym b == '9')).length := by
  decide

/-- C2 (amended): the encoder maps byte b to the symbol at index b mod 31 of
the 31-symbol alphabet (which excludes I, L, O, 0, 1), groups symbols in
runs of 4 joined by single dashes with no trailing dash; since 31 does not
divide 256, the mapping is biased: the 8 symbols at indices below 8 are the
image of 9 byte values each, the other 23 of 8 byte values each. -/
theorem c2_amended :
    (∀ bs : List Nat, encodeUserFriendly bs = joinDash (chunks4 (bs.map encodeSym)))
    ∧ userFriendlyAlphabet.length = 31
    ∧ (['I', 'L', 'O', '0', '1'].all (fun c => !(userFriendlyAlphabet.contains c))) = true
    ∧ (∀ b : Nat, encodeSym b = userFriendlyAlphabet.getD (b % 31) 'A')
    ∧ ((List.range 31).all (fun i =>
        ((List.range 256).filter (fun b => b % 31 == i)).length ==
          if i < 8 then 9 else 8)) = true :=
  ⟨encodeUserFriendly_grouping, by decide, by decide, fun b => rfl, by decide⟩

/-! Characterisation of ParseApiKey on arbitrary input (for C5). -/

theorem indexOf_decomp {c : Char} {k : List Char} (h : c ∈ k) :
    ∃ p s, k = p ++ c :: s ∧ c ∉ p ∧ p.length = k.indexOf c := by
  induction k with
  | nil => cases h
  | cons a rest ih =>
    by_cases hac : a = c
    · subst hac
      exact ⟨[], rest, rfl, by simp, by simp [List.indexOf_cons_self]⟩
    · have hmem : c ∈ rest := by
        rcases List.mem_cons.mp h with h1 | h2
        · exact absurd h1.symm hac
        · exact h2
      obtain ⟨p, s, hk, hnp, hlen⟩ := ih hmem
      refine ⟨a :: p, s, by rw [List.cons_append, ← hk], ?_, ?_⟩
      · rw [List.mem_cons, not_or]
        exact ⟨fun he => hac he.symm, hnp⟩
      · rw [List.indexOf_cons_ne _ hac, List.length_cons, hlen]

theorem isValidPrefixPart_iff {p : List Char} (hp : p ≠ []) :
    isValidPrefixPart p = true ↔
      (p.length ≤ MaxPrefixLen ∧ p.all isHexLowerChar = true) := by
  unfold isValidPrefixPart
  by_cases hl : p.length > MaxPrefixLen
  · rw [if_pos (Or.inr hl)]
    constructor
    · intro h; cases h
    · intro ⟨h1, _⟩; omega
  · rw [if_neg (by rw [not_or]; exact ⟨hp, hl⟩)]
    constructor
    · intro h; exact ⟨by omega, h⟩
    · intro ⟨_, h⟩; exact h

theorem isValidSecret_iff {s : List Char} (hs : s ≠ []) :
    isValidSecret s = true ↔
      (s.all (fun c => c == '-' || userFriendlyAlphabet.contains c) = true ∧
        (s.filter (fun c => c != '-')).length = SecretSymbolLen) := by
  unfold isValidSecret
  rw [if_neg hs]
  by_cases hall : s.all (fun c => c == '-' || userFriendlyAlphabet.contains c) = true
  · rw [if_pos hall]
    constructor
    · intro h
      exact ⟨hall, by simpa using h⟩
    · intro ⟨_, h⟩
      simpa using h
  · rw [if_neg hall]
    exact iff_of_false (by simp) (fun hand => hall hand.1)

/-- C5 (amended): ParseApiKey fails exactly when the input is empty, the
underscore is absent, the prefix or secret segment around its first
occurrence is empty, some prefix character is not lowercase hex, THE PREFIX
SEGMENT IS LONGER THAN MaxPrefixLen (16) (the condition the claim omits),
some non-dash secret character is outside the alphabet, or the non-dash
secret character count differs from 20; in every other case it returns the
segments before and after the first underscore. -/
theorem c5_amended (k : List Char) :
    (ParseApiKey k = none ↔
      (k = [] ∨ '_' ∉ k ∨
        k.take (k.indexOf '_') = [] ∨
        k.drop (k.indexOf '_' + 1) = [] ∨
        (k.take (k.indexOf '_')).all isHexLowerChar = false ∨
        (k.take (k.indexOf '_')).length > MaxPrefixLen ∨
        (k.drop (k.indexOf '_' + 1)).all
          (fun c => c == '-' || userFriendlyAlphabet.contains c) = false ∨
        ((k.drop (k.indexOf '_' + 1)).filter (fun c => c != '-')).length ≠ SecretSymbolLen))
    ∧ (ParseApiKey k ≠ none →
        ParseApiKey k = some (k.take (k.indexOf '_'), k.drop (k.indexOf '_' + 1))) := by
  by_cases hk : k = []
  · subst hk
    refine ⟨?_, ?_⟩
    · simp [ParseApiKey]
    · intro h
      exact absurd (by simp [ParseApiKey]) h
  by_cases hmem : '_' ∈ k
  case neg =>
    have hnone : ParseApiKey k = none := by
      unfold ParseApiKey
      rw [if_neg hk,
        if_pos (Or.inl (by unfold goIndexOf; rw [if_neg hmem]; norm_num))]
    refine ⟨?_, fun h => absurd hnone h⟩
    rw [hnone]
    simp [hmem]
  case pos =>
    obtain ⟨p, s, hk2, hnp, hplen⟩ := indexOf_decomp hmem
    subst hk2
    rw [← hplen]
    have htake : (p ++ '_' :: s).take p.length = p := List.take_left p ('_' :: s)
    have hdrop : (p ++ '_' :: s).drop (p.length + 1) = s := by
      rw [List.append_cons]
      have h2 : (p ++ ['_']).length = p.length + 1 := by simp
      rw [← h2, List.drop_left]
    rw [htake, hdrop, parse_structured hnp]
    by_cases hps : p = [] ∨ s = []
    · rw [if_pos hps]
      refine ⟨iff_of_true rfl ?_, fun h => absurd rfl h⟩
      rcases hps with h | h
      · exact Or.inr (Or.inr (Or.inl h))
      · exact Or.inr (Or.inr (Or.inr (Or.inl h)))
    · push_neg at hps
      obtain ⟨hp0, hs0⟩ := hps
      rw [if_neg (show ¬(p = [] ∨ s = []) from fun hor => hor.elim hp0 hs0)]
      by_cases hval : (isValidPrefixPart p && isValidSecret s) = true
      · rw [if_pos hval]
        rw [Bool.and_eq_true] at hval
        obtain ⟨hvp, hvs⟩ := hval
        obtain ⟨hlen16, hhex⟩ := (isValidPrefixPart_iff hp0).mp hvp
        obtain ⟨hchars, hcount⟩ := (isValidSecret_iff hs0).mp hvs
        refine ⟨iff_of_false (by simp) ?_, fun _ => rfl⟩
        intro hD
        rcases hD with h | h | h | h | h | h | h | h
        · simp at h
        · exact h (by simp)
        · exact hp0 h
        · exact hs0 h
        · rw [hhex] at h; cases h
        · omega
        · rw [hchars] at h; cases h
        · exact h hcount
      · rw [if_neg hval]
        refine ⟨iff_of_true rfl ?_, fun h => absurd rfl h⟩
        have hor : isValidPrefixPart p = false ∨ isValidSecret s = false := by
          cases hb1 : isValidPrefixPart p
          · exact Or.inl rfl
          · cases hb2 : isValidSecret s
            · exact Or.inr rfl
            · exact absurd (by rw [hb1, hb2]; rfl) hval
        rcases hor with hb | hb
        · by_cases hl : p.length > MaxPrefixLen
          · exact Or.inr (Or.inr (Or.inr (Or.inr (Or.inr (Or.inl hl)))))
          · refine Or.inr (Or.inr (Or.inr (Or.inr (Or.inl ?_))))
            cases hx : p.all isHexLowerChar
            · rfl
            · have : isValidPrefixPart p = true :=
                (isValidPrefixPart_iff hp0).mpr ⟨by omega, hx⟩
              rw [this] at hb
              cases hb
        · by_cases hc : s.all (fun c => c == '-' || userFriendlyAlphabet.contains c) = true
          · refine Or.inr (Or.inr (Or.inr (Or.inr (Or.inr (Or.inr (Or.inr ?_))))))
            intro hcount
            have : isValidSecret s = true := (isValidSecret_iff hs0).mpr ⟨hc, hcount⟩
            rw [this] at hb
            cases hb
          · refine Or.inr (Or.inr (Or.inr (Or.inr (Or.inr (Or.inr (Or.inl ?_))))))
            cases hx : s.all (fun c => c == '-' || userFriendlyAlphabet.contains c)
            · rfl
            · exact absurd hx hc

/-- C5 counterexample: a full key with a 17-character lowercase-hex prefix
and a valid 20-symbol secret is rejected by ParseApiKey although none of the
failure conditions listed in the claim holds. -/
theorem c5_counterexample :
    ParseApiKey (List.replicate 17 '0' ++ '_' :: List.replicate 20 'A') = none ∧
    (List.replicate 17 '0' ++ '_' :: List.replicate 20 'A') ≠ [] ∧
    '_' ∈ (List.replicate 17 '0' ++ '_' :: List.replicate 20 'A') ∧
    ((List.replicate 17 '0' ++ '_' :: List.replicate 20 'A').take
      ((List.replicate 17 '0' ++ '_' :: List.replicate 20 'A').indexOf '_') ≠ []) ∧
    ((List.replicate 17 '0' ++ '_' :: List.replicate 20 'A').drop
      ((List.replicate 17 '0' ++ '_' :: List.replicate 20 'A').indexOf '_' + 1) ≠ []) ∧
    (((List.replicate 17 '0' ++ '_' :: List.replicate 20 'A').take
      ((List.replicate 17 '0' ++ '_' :: List.replicate 20 'A').indexOf '_')).all
        isHexLowerChar = true) ∧
    (((List.replicate 17 '0' ++ '_' :: List.replicate 20 'A').drop
      ((List.replicate 17 '0' ++ '_' :: List.replicate 20 'A').indexOf '_' + 1)).all
        (fun c => c == '-' || userFriendlyAlphabet.contains c) = true) ∧
    ((((List.replicate 17 '0' ++ '_' :: List.replicate 20 'A').drop
      ((List.replicate 17 '0' ++ '_' :: List.replicate 20 'A').indexOf '_' + 1)).filter
        (fun c => c != '-')).length = SecretSymbolLen) := by
  decide

/-- Witness for C5 (amended), exercising the success branch on a concrete
well-formed key. -/
theorem c5_amended_witness :
    ParseApiKey (("ab").toList ++ '_' :: List.replicate 20 'A') =
      some (("ab").toList, List.replicate 20 'A') := by
  have h := (c5_amended (("ab").toList ++ '_' :: List.replicate 20 'A')).2
  have hne : ParseApiKey (("ab").toList ++ '_' :: List.replicate 20 'A') ≠ none := by
    decide
  exact (h hne).trans (by decide)

/-! Lemmas about goSplit and the verifiers. -/

theorem goSplit_cons_self (c : Char) (rest : List Char) :
    goSplit c (c :: rest) = [] :: goSplit c rest := by
  simp [goSplit]

theorem goSplit_not_mem {c : Char} : ∀ {l : List Char}, c ∉ l → goSplit c l = [l] := by
  intro l
  induction l with
  | nil => intro _; rfl
  | cons a rest ih =>
    intro h
    rw [List.mem_cons, not_or] at h
    obtain ⟨h1, h2⟩ := h
    unfold goSplit
    rw [if_neg (fun he => h1 he.symm), ih h2]

theorem goSplit_sep_append {c : Char} : ∀ {l : List Char}, c ∉ l → ∀ r : List Char,
    goSplit c (l ++ c :: r) = l :: goSplit c r := by
  intro l
  induction l with
  | nil => intro _ r; exact goSplit_cons_self c r
  | cons a rest ih =>
    intro h r
    rw [List.mem_cons, not_or] at h
    obtain ⟨h1, h2⟩ := h
    rw [List.cons_append]
    have hstep : goSplit c (a :: (rest ++ c :: r)) =
        if a = c then [] :: goSplit c (rest ++ c :: r)
        else
          match goSplit c (rest ++ c :: r) with
          | [] => [[a]]
          | x :: xs => (a :: x) :: xs := rfl
    rw [hstep, if_neg (fun he => h1 he.symm), ih h2 r]

theorem isPrefixOf_exists : ∀ {l₁ l₂ : List Char}, l₁.isPrefixOf l₂ = true →
    ∃ t, l₁ ++ t = l₂ := by
  intro l₁
  induction l₁ with
  | nil => intro l₂ _; exact ⟨l₂, rfl⟩
  | cons a as ih =>
    intro l₂ h
    cases l₂ with
    | nil => simp [List.isPrefixOf] at h
    | cons b bs =>
      simp only [List.isPrefixOf, Bool.and_eq_true, beq_iff_eq] at h
      obtain ⟨h1, h2⟩ := h
      obtain ⟨t, ht⟩ := ih h2
      exact ⟨t, by rw [List.cons_append, ht, h1]⟩

theorem parseApiKey_some_valid {k p s : List Char}
    (h : ParseApiKey k = some (p, s)) : isValidSecret s = true := by
  unfold ParseApiKey at h
  split at h
  · exact absurd h (by simp)
  · split at h
    · exact absurd h (by simp)
    · split at h
      case isTrue hcond =>
        simp only [Option.some.injEq, Prod.mk.injEq] at h
        obtain ⟨h1, h2⟩ := h
        subst h2
        rw [Bool.and_eq_true] at hcond
        exact hcond.2
      case isFalse _ => exact absurd h (by simp)

/-- ValidateApiKey after a successful parse: a pure length test followed by
the constant-time comparison. -/
theorem validateApiKey_parsed (sha512 : List Char → List Nat)
    (ctEq : List Char → List Char → Bool) {k p s : List Char} (stored : List Char)
    (h : ParseApiKey k = some (p, s)) :
    ValidateApiKey sha512 ctEq k stored =
      (if (HashApiKeySecret sha512 s).length ≠ stored.length then some false
       else some (ctEq (HashApiKeySecret sha512 s) stored)) := by
  have hsne : s ≠ [] := isValidSecret_ne_nil (parseApiKey_some_valid h)
  simp only [ValidateApiKey, h]
  rw [if_neg hsne]

/-- VerifyPassword on a structurally well-formed PHC string: all checks pass
and the comparison hash is derived from the parameters, salt and stored-hash
length taken from the string. -/
theorem verifyPassword_structured
    (argon2 : List Nat → List Nat → Nat → Nat → Nat → Nat → List Nat)
    (ctEq : List Nat → List Nat → Bool) (password : List Char)
    (paramsStr saltB64 hashB64 : List Char) (mem time par : Nat) (salt want : List Nat)
    (hp1 : '$' ∉ paramsStr) (hp2 : '$' ∉ saltB64) (hp3 : '$' ∉ hashB64)
    (hpp : parseArgonParams (goSplit ',' paramsStr) 0 0 0 = some (mem, time, par))
    (hsalt : rawB64Decode saltB64 = some salt)
    (hwant : rawB64Decode hashB64 = some want) :
    VerifyPassword argon2 ctEq (phcAssemble paramsStr saltB64 hashB64) password =
      (if (argon2 (password.map Char.toNat) salt time mem par want.length).length ≠ want.length
       then some false
       else some (ctEq (argon2 (password.map Char.toNat) salt time mem par want.length) want)) := by
  have hsplit : goSplit '$' (phcAssemble paramsStr saltB64 hashB64) =
      [[], ("argon2id").toList, ("v=19").toList, paramsStr, saltB64, hashB64] := by
    unfold phcAssemble
    rw [goSplit_cons_self]
    rw [goSplit_sep_append (by decide)]
    rw [goSplit_sep_append (by decide)]
    rw [goSplit_sep_append hp1]
    rw [goSplit_sep_append hp2]
    rw [goSplit_not_mem hp3]
  have hpref : (("$argon2id$").toList).isPrefixOf (phcAssemble paramsStr saltB64 hashB64) = true := rfl
  simp only [VerifyPassword, hsplit]
  rw [if_neg (not_not_intro hpref)]
  rw [if_neg (by simp)]
  rw [if_neg (by simp)]
  rw [show (([[], ("argon2id").toList, ("v=19").toList, paramsStr, saltB64, hashB64] :
      List (List Char)).getD 3 []) = paramsStr from rfl]
  rw [show (([[], ("argon2id").toList, ("v=19").toList, paramsStr, saltB64, hashB64] :
      List (List Char)).getD 4 []) = saltB64 from rfl]
  rw [show (([[], ("argon2id").toList, ("v=19").toList, paramsStr, saltB64, hashB64] :
      List (List Char)).getD 5 []) = hashB64 from rfl]
  rw [hpp, hsalt, hwant]

/-- ValidateBootstrap on a structurally well-formed stored string: a pure
length test followed by the constant-time comparison of the recomputed
derivation against the stored one. -/
theorem validateBootstrap_structured (sha256 : List Nat → List Nat)
    (argon2 : List Nat → List Nat → Nat → Nat → Nat → Nat → List Nat)
    (ctEq : List Nat → List Nat → Bool)
    {plain saltHex derivedHex : List Char} {saltB storedDerived secretB : List Nat}
    (h0 : plain ≠ []) (h1 : ':' ∉ saltHex) (h2 : ':' ∉ derivedHex)
    (hd1 : hexDecode saltHex = some saltB)
    (hd2 : hexDecode derivedHex = some storedDerived)
    (hd3 : hexDecode plain = some secretB) :
    ValidateBootstrap sha256 argon2 ctEq plain (saltHex ++ ':' :: derivedHex) =
      (if (argon2 (sha256 secretB) saltB 1 65536 4 32).length ≠ storedDerived.length
       then some false
       else some (ctEq (argon2 (sha256 secretB) saltB 1 65536 4 32) storedDerived)) := by
  have hsne : saltHex ++ ':' :: derivedHex ≠ [] := by simp
  have hsplit : goSplit ':' (saltHex ++ ':' :: derivedHex) = [saltHex, derivedHex] := by
    rw [goSplit_sep_append h1, goSplit_not_mem h2]
  simp only [ValidateBootstrap, hsplit, hd1, hd2, hd3]
  rw [if_neg (show ¬(plain = [] ∨ saltHex ++ ':' :: derivedHex = []) from
    fun hor => hor.elim h0 hsne)]

/-- C6: in all three verifiers, a length mismatch between the recomputed and
the stored digest yields the no-match result (false, nil) irrespective of
the comparison routine, which is therefore never consulted. -/
theorem c6_length_mismatch
    (sha512 : List Char → List Nat) (sha256 : List Nat → List Nat)
    (argon2 : List Nat → List Nat → Nat → Nat → Nat → Nat → List Nat)
    (ctEqC : List Char → List Char → Bool) (ctEqP ctEqB : List Nat → List Nat → Bool)
    (fullKey storedHash pfx0 sec0 : List Char)
    (hparse : ParseApiKey fullKey = some (pfx0, sec0))
    (hlen1 : (HashApiKeySecret sha512 sec0).length ≠ storedHash.length)
    (password paramsStr saltB64 hashB64 : List Char)
    (mem time par : Nat) (salt want : List Nat)
    (hp1 : '$' ∉ paramsStr) (hp2 : '$' ∉ saltB64) (hp3 : '$' ∉ hashB64)
    (hpp : parseArgonParams (goSplit ',' paramsStr) 0 0 0 = some (mem, time, par))
    (hsalt : rawB64Decode saltB64 = some salt)
    (hwant : rawB64Decode hashB64 = some want)
    (hlen2 : (argon2 (password.map Char.toNat) salt time mem par want.length).length ≠
      want.length)
    (plain saltHex derivedHex : List Char) (saltB storedDerived secretB : List Nat)
    (hb0 : plain ≠ []) (hb1 : ':' ∉ saltHex) (hb2 : ':' ∉ derivedHex)
    (hd1 : hexDecode saltHex = some saltB)
    (hd2 : hexDecode derivedHex = some storedDerived)
    (hd3 : hexDecode plain = some secretB)
    (hlen3 : (argon2 (sha256 secretB) saltB 1 65536 4 32).length ≠ storedDerived.length) :
    ValidateApiKey sha512 ctEqC fullKey storedHash = some false ∧
    VerifyPassword argon2 ctEqP (phcAssemble paramsStr saltB64 hashB64) password = some false ∧
    ValidateBootstrap sha256 argon2 ctEqB plain (saltHex ++ ':' :: derivedHex) = some false := by
  refine ⟨?_, ?_, ?_⟩
  · rw [validateApiKey_parsed sha512 ctEqC storedHash hparse, if_pos hlen1]
  · rw [verifyPassword_structured argon2 ctEqP password paramsStr saltB64 hashB64
      mem time par salt want hp1 hp2 hp3 hpp hsalt hwant, if_pos hlen2]
  · rw [validateBootstrap_structured sha256 argon2 ctEqB hb0 hb1 hb2 hd1 hd2 hd3,
      if_pos hlen3]

/-- Witness for C6 on concrete inputs for all three verifiers. -/
theorem c6_length_mismatch_witness :
    ValidateApiKey (fun _ => []) constantTimeEqChars
      (("ab").toList ++ '_' :: List.replicate 20 'A') (['x']) = some false ∧
    VerifyPassword (fun _ _ _ _ _ _ => []) constantTimeEq
      (phcAssemble (("m=8,t=3,p=2").toList) (("AAAA").toList) (("AAAA").toList))
      (("pw").toList) = some false ∧
    ValidateBootstrap (fun _ => []) (fun _ _ _ _ _ _ => []) constantTimeEq
      (("00").toList) ((("00").toList) ++ ':' :: (("0000").toList)) = some false :=
  c6_length_mismatch (fun _ => []) (fun _ => []) (fun _ _ _ _ _ _ => [])
    constantTimeEqChars constantTimeEq constantTimeEq
    (("ab").toList ++ '_' :: List.replicate 20 'A') (['x'])
    (("ab").toList) (List.replicate 20 'A') (by decide) (by decide)
    (("pw").toList) (("m=8,t=3,p=2").toList) (("AAAA").toList) (("AAAA").toList)
    8 3 2 ([0, 0, 0]) ([0, 0, 0])
    (by decide) (by decide) (by decide) (by decide) (by decide) (by decide) (by decide)
    (("00").toList) (("00").toList) (("0000").toList)
    ([0]) ([0, 0]) ([0])
    (by decide) (by decide) (by decide) (by decide) (by decide) (by decide) (by decide)

/-- C7: VerifyPassword derives the comparison hash from the memory cost,
time cost, parallelism and salt parsed out of the stored PHC string, with
key length equal to the decoded stored hash length (the parameters are
arbitrary here, so the compile-time defaults play no role); and it fails
with an error whenever the algorithm identifier is not argon2id, the
dollar-separated field count is not 6, or the version field is not v=19. -/
theorem c7_verify_uses_parsed_params
    (argon2 : List Nat → List Nat → Nat → Nat → Nat → Nat → List Nat)
    (ctEq : List Nat → List Nat → Bool) (password : List Char)
    (paramsStr saltB64 hashB64 : List Char) (mem time par : Nat) (salt want : List Nat)
    (hp1 : '$' ∉ paramsStr) (hp2 : '$' ∉ saltB64) (hp3 : '$' ∉ hashB64)
    (hpp : parseArgonParams (goSplit ',' paramsStr) 0 0 0 = some (mem, time, par))
    (hsalt : rawB64Decode saltB64 = some salt)
    (hwant : rawB64Decode hashB64 = some want) :
    (VerifyPassword argon2 ctEq (phcAssemble paramsStr saltB64 hashB64) password =
      (if (argon2 (password.map Char.toNat) salt time mem par want.length).length ≠ want.length
       then some false
       else some (ctEq (argon2 (password.map Char.toNat) salt time mem par want.length) want)))
    ∧ (∀ phc, (goSplit '$' phc).getD 1 [] ≠ (("argon2id").toList) →
        VerifyPassword argon2 ctEq phc password = none)
    ∧ (∀ phc, (goSplit '$' phc).length ≠ 6 →
        VerifyPassword argon2 ctEq phc password = none)
    ∧ (∀ phc, (goSplit '$' phc).length = 6 →
        (goSplit '$' phc).getD 2 [] ≠ (("v=19").toList) →
        VerifyPassword argon2 ctEq phc password = none) := by
  refine ⟨verifyPassword_structured argon2 ctEq password paramsStr saltB64 hashB64
    mem time par salt want hp1 hp2 hp3 hpp hsalt hwant, ?_, ?_, ?_⟩
  · intro phc hne
    by_cases hpre : (("$argon2id$").toList).isPrefixOf phc = true
    · obtain ⟨t, ht⟩ := isPrefixOf_exists hpre
      have hphc : phc = '$' :: ((("argon2id").toList) ++ '$' :: t) := by rw [← ht]; rfl
      rw [hphc] at hne
      rw [goSplit_cons_self, goSplit_sep_append (by decide)] at hne
      exact absurd rfl hne
    · simp only [VerifyPassword]
      rw [if_pos hpre]
  · intro phc hcount
    by_cases hpre : (("$argon2id$").toList).isPrefixOf phc = true
    · simp only [VerifyPassword]
      rw [if_neg (not_not_intro hpre), if_pos hcount]
    · simp only [VerifyPassword]
      rw [if_pos hpre]
  · intro phc hlen hver
    by_cases hpre : (("$argon2id$").toList).isPrefixOf phc = true
    · simp only [VerifyPassword]
      rw [if_neg (not_not_intro hpre), if_neg (by rw [hlen]; exact fun h => h rfl),
        if_pos hver]
    · simp only [VerifyPassword]
      rw [if_pos hpre]

/-- Witness for C7 on a concrete PHC string with parameters m=8, t=3, p=2
that differ from the compile-time defaults. -/
theorem c7_verify_uses_parsed_params_witness :
    VerifyPassword (fun _ _ _ _ _ _ => [0, 0, 0]) constantTimeEq
      (phcAssemble (("m=8,t=3,p=2").toList) (("AAAA").toList) (("AAAA").toList))
      (("pw").toList) = some true := by
  have h := (c7_verify_uses_parsed_params (fun _ _ _ _ _ _ => [0, 0, 0]) constantTimeEq
    (("pw").toList) (("m=8,t=3,p=2").toList) (("AAAA").toList) (("AAAA").toList)
    8 3 2 ([0, 0, 0]) ([0, 0, 0])
    (by decide) (by decide) (by decide) (by decide) (by decide) (by decide)).1
  rw [h]
  decide

/-- C10: generate/validate round trip for bootstrap secrets.  For every
32-byte secret draw and 16-byte salt draw, and any behaviour of the external
sha256/argon2 primitives (whose output bytes are bytes), validating the
returned plaintext against the returned stored hash succeeds with
(true, nil). -/
theorem c10_bootstrap_roundtrip (sha256 : List Nat → List Nat)
    (argon2 : List Nat → List Nat → Nat → Nat → Nat → Nat → List Nat)
    (secret salt : List Nat)
    (hs : secret.length = 32) (hsaltlen : salt.length = 16)
    (hsB : ∀ b ∈ secret, b < 256) (hsaltB : ∀ b ∈ salt, b < 256)
    (hdB : ∀ b ∈ argon2 (sha256 secret) salt 1 65536 4 32, b < 256) :
    ValidateBootstrap sha256 argon2 constantTimeEq
      (GenerateBootstrap sha256 argon2 secret salt).1
      (GenerateBootstrap sha256 argon2 secret salt).2 = some true := by
  have hgen : GenerateBootstrap sha256 argon2 secret salt =
      (hexEncode secret,
        hexEncode salt ++ ':' :: hexEncode (argon2 (sha256 secret) salt 1 65536 4 32)) := rfl
  rw [hgen]
  have hplainne : hexEncode secret ≠ [] := by
    intro he
    have := hexEncode_length secret
    rw [he, hs] at this
    simp at this
  rw [validateBootstrap_structured sha256 argon2 constantTimeEq hplainne
    (colon_not_mem_hexEncode hsaltB) (colon_not_mem_hexEncode hdB)
    (hexDecode_hexEncode hsaltB) (hexDecode_hexEncode hdB) (hexDecode_hexEncode hsB)]
  rw [if_neg (by simp)]
  simp [constantTimeEq]

/-- Witness for C10 with concrete draws and concrete stand-ins for the
external primitives. -/
theorem c10_bootstrap_roundtrip_witness :
    ValidateBootstrap (fun _ => []) (fun _ _ _ _ _ _ => List.replicate 32 0) constantTimeEq
      (GenerateBootstrap (fun _ => []) (fun _ _ _ _ _ _ => List.replicate 32 0)
        (List.replicate 32 1) (List.replicate 16 2)).1
      (GenerateBootstrap (fun _ => []) (fun _ _ _ _ _ _ => List.replicate 32 0)
        (List.replicate 32 1) (List.replicate 16 2)).2 = some true :=
  c10_bootstrap_roundtrip (fun _ => []) (fun _ _ _ _ _ _ => List.replicate 32 0)
    (List.replicate 32 1) (List.replicate 16 2)
    (by decide) (by decide) (by decide) (by decide) (by decide)

/-- C3 (code evidence): in the part_002 revision of Generate, the returned
prefix is the first prefixLen characters of the secret's hex encoding — a
value derived from the secret draw, with no separate prefix draw at all —
so two runs that differ only in the secret randomness return different
prefixes; by contrast, in GenerateApiKey and the part_003 Generate the
prefix is independent of the secret draw. -/
theorem c3_v002_prefix_derived_from_secret :
    ((Generate_v002 (fun _ => []) 8 (List.replicate 32 0)).2.1 =
      (hexEncode (List.replicate 32 0)).take 8 ∧
    (Generate_v002 (fun _ => []) 8 (List.replicate 32 0)).2.1 ≠
      (Generate_v002 (fun _ => []) 8 (List.replicate 32 255)).2.1)
    ∧ (∀ (sha512 : List Char → List Nat) (n : Int) (sb1 sb2 pb : List Nat),
        (GenerateApiKey sha512 n sb1 pb).2.1 = (GenerateApiKey sha512 n sb2 pb).2.1)
    ∧ (∀ (sha512 : List Char → List Nat) (n : Int) (sb1 sb2 pb : List Nat),
        (Generate_v003 sha512 n sb1 pb).2.1 = (Generate_v003 sha512 n sb2 pb).2.1) :=
  ⟨⟨rfl, by decide⟩, fun _ _ _ _ _ => rfl, fun _ _ _ _ _ => rfl⟩

/-- C4 counterexample: two bootstrap generations for the same 32-byte secret
but different salt draws produce different stored hash strings, so
"generating the stored hash twice for the same secret yields the same stored
string" fails. -/
theorem c4_counterexample :
    (GenerateBootstrap (fun _ => []) (fun _ _ _ _ _ _ => []) (List.replicate 32 0)
      (List.replicate 16 0)).2 ≠
    (GenerateBootstrap (fun _ => []) (fun _ _ _ _ _ _ => []) (List.replicate 32 0)
      (List.replicate 16 1)).2 := by
  decide

/-- C4 (amended): hashing is deterministic per scheme given the same random
draws: HashApiKeySecret yields equal digests for equal secrets, and
GenerateBootstrap yields equal stored strings for equal secret AND salt
draws (for different salt draws the stored strings differ, as the
counterexample shows). -/
theorem c4_amended (sha512 : List Char → List Nat) (sha256 : List Nat → List Nat)
    (argon2 : List Nat → List Nat → Nat → Nat → Nat → Nat → List Nat)
    (s₁ s₂ : List Char) (h : s₁ = s₂)
    (secret₁ secret₂ salt₁ salt₂ : List Nat)
    (hsec : secret₁ = secret₂) (hsalt : salt₁ = salt₂) :
    HashApiKeySecret sha512 s₁ = HashApiKeySecret sha512 s₂ ∧
    (GenerateBootstrap sha256 argon2 secret₁ salt₁).2 =
      (GenerateBootstrap sha256 argon2 secret₂ salt₂).2 := by
  subst h
  subst hsec
  subst hsalt
  exact ⟨rfl, rfl⟩

/-- Witness for C4 (amended). -/
theorem c4_amended_witness :
    HashApiKeySecret (fun _ => []) (("s").toList) =
      HashApiKeySecret (fun _ => []) (("s").toList) ∧
    (GenerateBootstrap (fun _ => []) (fun _ _ _ _ _ _ => []) ([1]) ([2])).2 =
      (GenerateBootstrap (fun _ => []) (fun _ _ _ _ _ _ => []) ([1]) ([2])).2 :=
  c4_amended (fun _ => []) (fun _ => []) (fun _ _ _ _ _ _ => [])
    (("s").toList) (("s").toList) rfl ([1]) ([1]) ([2]) ([2]) rfl rfl

/-- C8 counterexample: a password consisting of a single space is non-empty,
yet HashPassword rejects it with an error because TrimSpace empties it. -/
theorem c8_counterexample :
    HashPassword (fun _ _ _ _ _ _ => []) ([' ']) (List.replicate 16 0) = none ∧
    ([' '] : List Char) ≠ [] :=
  ⟨rfl, by decide⟩

/-- C8 (amended): HashPassword errors exactly when the password is empty or
consists solely of whitespace (TrimSpace-empty); for every other password
and successful salt draw it returns the PHC string built from the
compile-time parameters m=65536, t=2, p=1, the salt and the derived key,
with no error. -/
theorem c8_amended (argon2 : List Nat → List Nat → Nat → Nat → Nat → Nat → List Nat)
    (password : List Char) (salt : List Nat) :
    (HashPassword argon2 password salt = none ↔ trimSpace password = []) ∧
    (trimSpace password ≠ [] →
      HashPassword argon2 password salt =
        some (mkPhc salt (argon2 (password.map Char.toNat) salt 2 65536 1 32))) := by
  unfold HashPassword
  by_cases h : trimSpace password = []
  · rw [if_pos h]
    exact ⟨iff_of_true rfl h, fun hn => absurd h hn⟩
  · rw [if_neg h]
    exact ⟨iff_of_false (by simp) h, fun _ => rfl⟩

/-- Witness for C8 (amended) on a concrete non-whitespace password. -/
theorem c8_amended_witness :
    HashPassword (fun _ _ _ _ _ _ => []) (("pw").toList) ([3]) =
      some (mkPhc ([3]) []) :=
  (c8_amended (fun _ _ _ _ _ _ => []) (("pw").toList) ([3])).2 (by decide)

/-! Clamping facts for C9. -/

theorem clampPrefixLen002_bounds (n : Int) :
    1 ≤ clampPrefixLen002 n ∧ clampPrefixLen002 n ≤ MaxPrefixLen002 := by
  unfold clampPrefixLen002
  by_cases h : n ≤ 0 ∨ n > (MaxPrefixLen002 : Int)
  · rw [if_pos h]
    simp [MaxPrefixLen002]
  · rw [if_neg h]
    push_neg at h
    simp [MaxPrefixLen002] at h ⊢
    omega

theorem clampPrefixLen_out {n : Int} (h : n ≤ 0 ∨ n > 16) :
    clampPrefixLen n = MaxPrefixLen := by
  unfold clampPrefixLen
  rw [if_pos (by simpa [MaxPrefixLen] using h)]

theorem clampPrefixLen_in {n : Int} (h1 : 1 ≤ n) (h2 : n ≤ 16) :
    ((clampPrefixLen n : Nat) : Int) = n := by
  unfold clampPrefixLen
  have hc : ¬(n ≤ 0 ∨ n > (MaxPrefixLen : Int)) := by
    rw [not_or]
    constructor
    · omega
    · simp only [MaxPrefixLen]
      push_cast
      omega
  rw [if_neg hc]
  omega

theorem clampPrefixLen002_out {n : Int} (h : n ≤ 0 ∨ n > 10) :
    clampPrefixLen002 n = MaxPrefixLen002 := by
  unfold clampPrefixLen002
  rw [if_pos (by simpa [MaxPrefixLen002] using h)]

theorem clampPrefixLen002_in {n : Int} (h1 : 1 ≤ n) (h2 : n ≤ 10) :
    ((clampPrefixLen002 n : Nat) : Int) = n := by
  unfold clampPrefixLen002
  have hc : ¬(n ≤ 0 ∨ n > (MaxPrefixLen002 : Int)) := by
    rw [not_or]
    constructor
    · omega
    · simp only [MaxPrefixLen002]
      push_cast
      omega
  rw [if_neg hc]
  omega

theorem take_hexEncode_length {pb : List Nat} {pl : Nat} (h : pb.length = (pl + 1) / 2) :
    ((hexEncode pb).take pl).length = pl := by
  rw [List.length_take, hexEncode_length, h]
  omega

/-- C9: boundary clamping of the prefix length and full-key shape, for
GenerateApiKey (max 16), the part_003 Generate (max 16) and the part_002
Generate (max 10): an out-of-range request yields a prefix of exactly the
configured maximum length, an in-range request one of exactly the requested
length, and the full key is always prefix ++ separator ++ secret. -/
theorem c9_clamping (sha512 : List Char → List Nat) (n : Int)
    (sb20 sb32 pb : List Nat)
    (hsb32 : sb32.length = 32)
    (hpb : pb.length = (clampPrefixLen n + 1) / 2) :
    (((n ≤ 0 ∨ n > 16) → (GenerateApiKey sha512 n sb20 pb).2.1.length = MaxPrefixLen) ∧
      ((1 ≤ n ∧ n ≤ 16) → ((GenerateApiKey sha512 n sb20 pb).2.1.length : Int) = n) ∧
      (GenerateApiKey sha512 n sb20 pb).1 =
        (GenerateApiKey sha512 n sb20 pb).2.1 ++ '_' :: encodeUserFriendly sb20)
    ∧ (((n ≤ 0 ∨ n > 16) → (Generate_v003 sha512 n sb32 pb).2.1.length = MaxPrefixLen) ∧
      ((1 ≤ n ∧ n ≤ 16) → ((Generate_v003 sha512 n sb32 pb).2.1.length : Int) = n) ∧
      (Generate_v003 sha512 n sb32 pb).1 =
        (Generate_v003 sha512 n sb32 pb).2.1 ++ '.' :: hexEncode sb32)
    ∧ (((n ≤ 0 ∨ n > 10) → (Generate_v002 sha512 n sb32).2.1.length = MaxPrefixLen002) ∧
      ((1 ≤ n ∧ n ≤ 10) → ((Generate_v002 sha512 n sb32).2.1.length : Int) = n) ∧
      (Generate_v002 sha512 n sb32).1 =
        (Generate_v002 sha512 n sb32).2.1 ++ '.' :: hexEncode sb32) := by
  have hApiLen : (GenerateApiKey sha512 n sb20 pb).2.1.length = clampPrefixLen n :=
    take_hexEncode_length hpb
  have hV3Len : (Generate_v003 sha512 n sb32 pb).2.1.length = clampPrefixLen n :=
    take_hexEncode_length hpb
  have hV2Len : (Generate_v002 sha512 n sb32).2.1.length = clampPrefixLen002 n := by
    show ((hexEncode sb32).take (clampPrefixLen002 n)).length = clampPrefixLen002 n
    rw [List.length_take, hexEncode_length, hsb32]
    have h10 := (clampPrefixLen002_bounds n).2
    simp only [MaxPrefixLen002] at h10
    omega
  refine ⟨⟨?_, ?_, rfl⟩, ⟨?_, ?_, rfl⟩, ⟨?_, ?_, rfl⟩⟩
  · intro h
    rw [hApiLen, clampPrefixLen_out h]
  · intro ⟨h1, h2⟩
    rw [hApiLen]
    exact clampPrefixLen_in h1 h2
  · intro h
    rw [hV3Len, clampPrefixLen_out h]
  · intro ⟨h1, h2⟩
    rw [hV3Len]
    exact clampPrefixLen_in h1 h2
  · intro h
    rw [hV2Len, clampPrefixLen002_out h]
  · intro ⟨h1, h2⟩
    rw [hV2Len]
    exact clampPrefixLen002_in h1 h2

/-- Witness for C9: an in-range request (5) and an out-of-range request (0)
on concrete draws. -/
theorem c9_clamping_witness :
    (((GenerateApiKey (fun _ => []) 5 (List.replicate 20 0) (List.replicate 3 0)).2.1.length :
      Int) = 5) ∧
    (GenerateApiKey (fun _ => []) 0 (List.replicate 20 0) (List.replicate 8 0)).2.1.length =
      MaxPrefixLen := by
  constructor
  · exact (c9_clamping (fun _ => []) 5 (List.replicate 20 0) (List.replicate 32 0)
      (List.replicate 3 0) (by decide) (by decide)).1.2.1 (by decide)
  · exact (c9_clamping (fun _ => []) 0 (List.replicate 20 0) (List.replicate 32 0)
      (List.replicate 8 0) (by decide) (by decide)).1.1 (by decide)

end Apikey
